import Mathlib

/-!
Verification of the LangSense dashboard client (history.js and the
statistics page script). Each definition below is a shallow embedding of
one piece of the JavaScript source: JS strings become Lean strings or
character lists, JS objects used as insertion-ordered dictionaries become
association lists with in-place update, JS numbers on the integer-valued
code paths become Nat or Int, and the exact rational value is used where
the code divides before rounding with Math.round. Timestamps become
instants in minutes since the epoch, and the toISOString day truncation
the code applies to both the bucket labels and the record timestamps
becomes flooring division by the number of minutes in a day, which
yields the UTC calendar date of the instant.
-/

namespace LangSense

/-- Math.round on a nonnegative rational: floor of the value plus one
half, which is how JavaScript rounds halves (toward positive infinity). -/
def jsRound (q : ℚ) : ℤ := ⌊q + 1 / 2⌋

/-- Embeds the reduce in StatisticsManager.displayStatistics over
Object.values(confidence_distribution).slice(0, 4), summing the counts
of the first four buckets; the distribution is taken as the list of its
counts in the given order of the object. -/
def highConfidenceCount (dist : List ℕ) : ℕ :=
  ((dist.take 4).foldl (fun sum count => sum + count) 0)

/-- Embeds the success-rate computation in
StatisticsManager.displayStatistics: when total is greater than zero the
result is Math.round of highConfidenceCount divided by total times 100,
otherwise 0. -/
def successRate (dist : List ℕ) (total : ℕ) : ℤ :=
  if 0 < total then jsRound (((highConfidenceCount dist : ℚ) / (total : ℚ)) * 100)
  else 0

/-- Step of the most-detected-language loop in
StatisticsManager.displayStatistics: the entry replaces the accumulator
exactly when its count is strictly greater than the running maximum. -/
def mflStep (acc : String × ℕ) (p : String × ℕ) : String × ℕ :=
  if acc.2 < p.2 then p else acc

/-- Embeds the for-of loop over Object.entries(language_distribution) in
StatisticsManager.displayStatistics, started from mostDetected set to the
dash placeholder and maxCount set to 0; returns the final mostDetected. -/
def mostFrequentLanguage (dist : List (String × ℕ)) : String :=
  (dist.foldl mflStep ("-", 0)).1

/-- Maximum count appearing in a distribution, zero for the empty one;
used to state which key the loop behind mostFrequentLanguage returns. -/
def maxCount : List (String × ℕ) → ℕ
  | [] => 0
  | p :: t => max p.2 (maxCount t)

/-- Lookup in a JS object modelled as an insertion-ordered association
list: the value at the first matching key, if any. -/
def objGet {α : Type} : List (String × α) → String → Option α
  | [], _ => none
  | p :: t, k => if p.1 = k then some p.2 else objGet t k

/-- Assignment obj[k] = v on a JS object modelled as an insertion-ordered
association list: updates the first matching key in place, otherwise
appends the new key at the end, matching how JS objects order
non-numeric string keys. -/
def objSet {α : Type} : List (String × α) → String → α → List (String × α)
  | [], k, v => [(k, v)]
  | p :: t, k, v => if p.1 = k then (k, v) :: t else p :: objSet t k v

/-- Distinct values of a list in order of first encounter; used to state
the key order of the days object built by the grouping loop. -/
def keysInOrder : List String → List String
  | [] => []
  | d :: t => d :: (keysInOrder t).filter (fun x => x != d)

/-- Row created by createActivityChart for a date seen for the first
time: the object literal with Hindi, English and Hinglish all zero, in
that key order. -/
def defaultRow : List (String × ℕ) := [("Hindi", 0), ("English", 0), ("Hinglish", 0)]

/-- One iteration of the forEach in StatisticsManager.createActivityChart:
for an item (date, language, count), ensure days[date] exists (creating
the default three-language row if not) and then assign
days[date][language] = count. -/
def seriesStep (days : List (String × List (String × ℕ)))
    (item : String × String × ℕ) : List (String × List (String × ℕ)) :=
  objSet days item.1 (objSet ((objGet days item.1).getD defaultRow) item.2.1 item.2.2)

/-- Embeds the grouping loop of StatisticsManager.createActivityChart:
the days object built by folding seriesStep over recent_activity,
starting from the empty object. -/
def dailyLanguageSeries (act : List (String × String × ℕ)) :
    List (String × List (String × ℕ)) :=
  act.foldl seriesStep []

/-- Value rendered for one date and one language by the activity chart:
the lookup days[date][language] through both association lists. -/
def rowLookup (days : List (String × List (String × ℕ))) (d lang : String) : Option ℕ :=
  (objGet days d).bind (fun row => objGet row lang)

/-- Count carried by the last tuple of the input matching a given date
and language, if any; used to state which assignment survives the
grouping loop. -/
def lastMatch : List (String × String × ℕ) → String → String → Option ℕ
  | [], _, _ => none
  | t :: rest, d, lang =>
    match lastMatch rest d lang with
    | some c => some c
    | none => if t.1 = d ∧ t.2.1 = lang then some t.2.2 else none

/-- Calendar-day index of an instant measured in minutes since the
epoch: Euclidean division by 1440 floors toward negative infinity for
the positive divisor, matching the date part of toISOString, which
renders the UTC calendar date of the instant. -/
def utcDay (t : ℤ) : ℤ := t / 1440

/-- Follows the words of the spec (the client-local date of an instant):
the calendar day at a client whose clock runs at a fixed offset, in
minutes, from UTC. The code never computes this value; it is declared
here only to compare the UTC truncation the code performs against the
client-local date the spec names. -/
def localDay (off t : ℤ) : ℤ := (t + off) / 1440

/-- Embeds the last7Days construction in
HistoryManager.createHistoryActivityChart over instants in epoch
minutes: the loop from i = 6 down to 0 shifts the current instant back
by i calendar days (exactly i times 1440 minutes for a client at a
fixed UTC offset, so a DST transition inside the window is outside this
model) and pushes the toISOString date of the shifted instant, which is
its UTC day, not its client-local day. -/
def last7Days (now : ℤ) : List ℤ :=
  (List.range 7).map (fun (i : ℕ) => utcDay (now - (6 - (i : ℤ)) * 1440))

/-- One iteration of the detections.forEach in
HistoryManager.createHistoryActivityChart: the day of the record is
incremented in the counts object only when the object owns that key, so
out-of-window records leave the counts unchanged. -/
def incIfPresent (counts : List (ℤ × ℕ)) (day : ℤ) : List (ℤ × ℕ) :=
  counts.map (fun p => if p.1 = day then (p.1, p.2 + 1) else p)

/-- Embeds the daily bucketing of
HistoryManager.createHistoryActivityChart: each of the seven buckets
starts at zero and every record increments the bucket owning the UTC
day of its created_at instant, since the code truncates records with
the same toISOString call used for the labels. -/
def bucketByDay (records : List ℤ) (now : ℤ) : List (ℤ × ℕ) :=
  (records.map utcDay).foldl incIfPresent ((last7Days now).map (fun d => (d, 0)))

/-- Ellipsis marker appended by HistoryManager.displayHistory to a
truncated preview. -/
def ellipsis : List Char := ['.', '.', '.']

/-- Embeds the textPreview expression in HistoryManager.displayHistory,
with the JS string abstracted to its list of characters: texts longer
than 100 become their first 100 characters followed by the ellipsis,
shorter or equal texts pass through; the Boolean is the condition
comparing input_text.length against 100 that also drives the
show-full-text button. -/
def previewText (text : List Char) : List Char × Bool :=
  if 100 < text.length then (text.take 100 ++ ellipsis, true) else (text, false)

/-- Embeds the JavaScript toLowerCase call character by character. -/
def jsToLower (s : String) : String := String.mk (s.data.map Char.toLower)

/-- Embeds HistoryManager.getLanguageBadgeClass. The argument is optional
because the detected_language field may be absent; on an absent value the
call language.toLowerCase() throws a TypeError, modelled as none. -/
def getLanguageBadge (language : Option String) : Option String :=
  match language with
  | none => none
  | some s =>
    some (if jsToLower s = "hindi" then "bg-gradient-to-r from-orange-500 to-red-500"
      else if jsToLower s = "english" then "bg-gradient-to-r from-blue-500 to-blue-600"
      else if jsToLower s = "hinglish" then "bg-gradient-to-r from-green-500 to-emerald-500"
      else "bg-gradient-to-r from-gray-500 to-gray-600")

/-- Pagination state held by HistoryManager: currentPage starts at 1 and
totalPages comes from the server payload. -/
structure PagState where
  currentPage : ℤ
  totalPages : ℤ
  deriving DecidableEq, Repr

/-- Embeds the prev-page click handler in HistoryManager.bindEvents: when
currentPage is greater than 1, decrement it and reload; the Boolean
records whether loadHistory was called. -/
def prevPage (s : PagState) : PagState × Bool :=
  if 1 < s.currentPage then ({ s with currentPage := s.currentPage - 1 }, true)
  else (s, false)

/-- Embeds the next-page click handler in HistoryManager.bindEvents: when
currentPage is less than totalPages, increment it and reload. -/
def nextPage (s : PagState) : PagState × Bool :=
  if s.currentPage < s.totalPages then ({ s with currentPage := s.currentPage + 1 }, true)
  else (s, false)

/-- Embeds the page reset in HistoryManager.applyFilters: currentPage is
set back to 1 and a reload is triggered. -/
def applyFiltersPage (s : PagState) : PagState × Bool :=
  ({ s with currentPage := 1 }, true)

/-- UI-relevant state of HistoryManager during loadHistory: the loading
flag driven by showLoading, the pagination fields, the cached detections
(abstracted to their ids) and the message rendered by showError. -/
structure HState where
  loading : Bool
  currentPage : ℤ
  totalPages : ℤ
  detections : List ℤ
  errorMsg : Option String
  deriving DecidableEq, Repr

/-- Possible outcomes of the fetch in HistoryManager.loadHistory: a
success envelope carrying detections and a total-page count, an envelope
with success false, a rejected fetch, and a response whose body fails to
parse as JSON (response.json() throws into the catch block). -/
inductive FetchOutcome where
  | success (detections : List ℤ) (totalPages : ℤ)
  | envelopeFailure
  | networkError
  | nonJsonResponse
  deriving DecidableEq, Repr

/-- Embeds HistoryManager.loadHistory as a function of the fetch outcome:
showLoading(true) runs first, then the success branch caches the
detections and stores total_pages while each failure branch calls
showError, and the finally block always ends with showLoading(false). -/
def loadHistory (s : HState) (o : FetchOutcome) : HState :=
  let s1 : HState := { s with loading := true }
  let s2 : HState :=
    match o with
    | .success dets pages =>
      { s1 with detections := dets, totalPages := pages, errorMsg := none }
    | .envelopeFailure =>
      { s1 with errorMsg := some "Failed to load detection history." }
    | .networkError =>
      { s1 with errorMsg := some "Network error. Please check your connection." }
    | .nonJsonResponse =>
      { s1 with errorMsg := some "Network error. Please check your connection." }
  { s2 with loading := false }

/-- Characterization of jsRound through the floor bracketing of the
shifted value. -/
theorem jsRound_eq (q : ℚ) (n : ℤ) (h1 : (n : ℚ) ≤ q + 1 / 2) (h2 : q + 1 / 2 < n + 1) :
    jsRound q = n :=
  Int.floor_eq_iff.mpr ⟨h1, h2⟩

/-- The reduce over the first four buckets computes their sum. -/
theorem highConfidenceCount_eq_sum (dist : List ℕ) :
    highConfidenceCount dist = (dist.take 4).sum := by
  rw [highConfidenceCount, List.sum_eq_foldl]

/-- Rounding a nonnegative value yields a nonnegative integer. -/
theorem jsRound_nonneg (q : ℚ) (h : 0 ≤ q) : 0 ≤ jsRound q :=
  Int.le_floor.mpr (by push_cast; linarith)

/-- Rounding a value at most 100 yields an integer at most 100. -/
theorem jsRound_le_hundred (q : ℚ) (h : q ≤ 100) : jsRound q ≤ 100 := by
  have hlt : jsRound q < 101 := Int.floor_lt.mpr (by push_cast; linarith)
  omega

end LangSense

namespace LangSense

/-- C1 (amended): successRate returns Math.round of the sum of the first
four bucket counts divided by total times 100, returns 0 when total is 0
without any division error, and equals 95 on buckets [10,5,3,2,1] with
total 21; the result lies in [0,100] provided the first-four-bucket sum
does not exceed total (as holds whenever total is the total of all
buckets). Without that proviso the bound can fail, see the
counterexample. -/
theorem successRate_amended (dist : List ℕ) (total : ℕ) :
    (total = 0 → successRate dist total = 0) ∧
    (0 < total → successRate dist total
        = jsRound ((((dist.take 4).sum : ℚ) / (total : ℚ)) * 100)) ∧
    (highConfidenceCount dist ≤ total →
      0 ≤ successRate dist total ∧ successRate dist total ≤ 100) ∧
    successRate [10, 5, 3, 2, 1] 21 = 95 := by
  refine ⟨fun h0 => by simp [successRate, h0], fun ht => ?_, fun hle => ?_, ?_⟩
  · rw [successRate, if_pos ht, highConfidenceCount_eq_sum]
  · rcases Nat.eq_zero_or_pos total with h0 | ht
    · simp [successRate, h0]
    · have htq : (0 : ℚ) < (total : ℚ) := by exact_mod_cast ht
      have hq0 : (0 : ℚ) ≤ ((highConfidenceCount dist : ℚ) / (total : ℚ)) * 100 := by
        positivity
      have hq1 : ((highConfidenceCount dist : ℚ) / (total : ℚ)) * 100 ≤ 100 := by
        have hdiv : (highConfidenceCount dist : ℚ) / (total : ℚ) ≤ 1 :=
          (div_le_one htq).mpr (by exact_mod_cast hle)
        linarith
      rw [successRate, if_pos ht]
      exact ⟨jsRound_nonneg _ hq0, jsRound_le_hundred _ (by linarith)⟩
  · rw [successRate, if_pos (by norm_num),
      show highConfidenceCount [10, 5, 3, 2, 1] = 20 from rfl]
    apply jsRound_eq <;> norm_num

/-- Witness for C1: the amended theorem applied at total 0 and at the
scenario input of the spec. -/
theorem successRate_amended_witness :
    successRate [] 0 = 0 ∧
      (0 ≤ successRate [10, 5, 3, 2, 1] 21 ∧ successRate [10, 5, 3, 2, 1] 21 ≤ 100) :=
  ⟨(successRate_amended [] 0).1 rfl,
   (successRate_amended [10, 5, 3, 2, 1] 21).2.2.1 (by decide)⟩

/-- Counterexample for C1 as stated: with bucket counts [2] and total 1
the result is 200, outside [0,100], because the first-four-bucket sum
exceeds total. -/
theorem successRate_counterexample : 100 < successRate [2] 1 := by
  have h200 : successRate [2] 1 = 200 := by
    rw [successRate, if_pos (by norm_num), show highConfidenceCount [2] = 2 from rfl]
    apply jsRound_eq <;> norm_num
  omega

/-- C9: holding total fixed, successRate is monotone in the sum of the
first four bucket counts. -/
theorem successRate_monotone (d1 d2 : List ℕ) (total : ℕ)
    (h : highConfidenceCount d1 ≤ highConfidenceCount d2) :
    successRate d1 total ≤ successRate d2 total := by
  rcases Nat.eq_zero_or_pos total with h0 | ht
  · simp [successRate, h0]
  · have htq : (0 : ℚ) < (total : ℚ) := by exact_mod_cast ht
    rw [successRate, successRate, if_pos ht, if_pos ht]
    apply Int.floor_le_floor
    have hc : (highConfidenceCount d1 : ℚ) ≤ (highConfidenceCount d2 : ℚ) := by
      exact_mod_cast h
    gcongr

/-- Witness for C9: monotonicity applied to two concrete distributions
over the same total. -/
theorem successRate_monotone_witness :
    successRate [5, 0, 0, 0] 10 ≤ successRate [9, 0, 0, 0] 10 :=
  successRate_monotone [5, 0, 0, 0] [9, 0, 0, 0] 10 (by decide)

/-- Every count in a distribution is bounded by maxCount. -/
theorem le_maxCount (l : List (String × ℕ)) : ∀ p ∈ l, p.2 ≤ maxCount l := by
  induction l with
  | nil => simp
  | cons q t ih =>
    intro p hp
    rcases List.mem_cons.mp hp with h | h
    · subst h; simp [maxCount]
    · have := ih p h; simp [maxCount]; omega

/-- The most-frequent fold keeps its accumulator when no entry strictly
exceeds it. -/
theorem mflStep_stay (l : List (String × ℕ)) :
    ∀ acc : String × ℕ, (∀ p ∈ l, p.2 ≤ acc.2) → l.foldl mflStep acc = acc := by
  induction l with
  | nil => intro acc _; rfl
  | cons q t ih =>
    intro acc h
    rw [List.foldl_cons, show mflStep acc q = acc from by
      unfold mflStep
      rw [if_neg]
      have := h q (List.mem_cons_self q t)
      omega]
    exact ih acc (fun p hp => h p (List.mem_cons_of_mem q hp))

/-- The most-frequent fold from any accumulator strictly below the
maximum lands on the first entry attaining the maximum count. -/
theorem mfl_find : ∀ (l : List (String × ℕ)) (acc : String × ℕ), acc.2 < maxCount l →
    l.find? (fun p => p.2 == maxCount l) = some (l.foldl mflStep acc)
  | [], acc, h => by simp [maxCount] at h
  | q :: t, acc, h => by
    have hmax : maxCount (q :: t) = max q.2 (maxCount t) := rfl
    by_cases hq : q.2 = maxCount (q :: t)
    · rw [List.find?_cons_of_pos _ (by simp [hq]), List.foldl_cons]
      rw [show mflStep acc q = q from by unfold mflStep; rw [if_pos]; omega]
      rw [mflStep_stay t q (fun p hp => by
        have h1 := le_maxCount t p hp
        omega)]
    · have hlt : q.2 < maxCount (q :: t) := by omega
      have hmt : maxCount t = maxCount (q :: t) := by omega
      rw [List.find?_cons_of_neg _ (by simp [hq]), List.foldl_cons]
      have hacc : (mflStep acc q).2 < maxCount t := by
        unfold mflStep
        by_cases hc : acc.2 < q.2 <;> simp [hc] <;> omega
      have hrec := mfl_find t (mflStep acc q) hacc
      rw [hmt] at hrec
      exact hrec

/-- C3 (amended): on an empty distribution, and also whenever every count
is zero, mostFrequentLanguage returns the dash placeholder; whenever some
count is positive it returns the key of the first entry attaining the
maximal count, so ties resolve to the key encountered first in iteration
order. The claim as stated fails when the unique maximal count is zero,
see the counterexample. -/
theorem mostFrequent_amended (dist : List (String × ℕ)) :
    mostFrequentLanguage [] = "-" ∧
    (maxCount dist = 0 → mostFrequentLanguage dist = "-") ∧
    (0 < maxCount dist →
      (dist.find? (fun p => p.2 == maxCount dist)).map Prod.fst
        = some (mostFrequentLanguage dist)) := by
  refine ⟨rfl, fun h0 => ?_, fun hpos => ?_⟩
  · unfold mostFrequentLanguage
    rw [mflStep_stay dist ("-", 0) (fun p hp => by
      have := le_maxCount dist p hp
      omega)]
  · rw [mfl_find dist ("-", 0) (by simpa using hpos)]
    rfl

/-- Witness for C3: on the tie scenario of the spec the first key in
iteration order is returned. -/
theorem mostFrequent_amended_witness :
    (([("English", 5), ("Hindi", 5)] : List (String × ℕ)).find?
        (fun p => p.2 == maxCount [("English", 5), ("Hindi", 5)])).map Prod.fst
      = some (mostFrequentLanguage [("English", 5), ("Hindi", 5)]) ∧
    mostFrequentLanguage [("English", 5), ("Hindi", 5)] = "English" :=
  ⟨(mostFrequent_amended [("English", 5), ("Hindi", 5)]).2.2 (by decide), by decide⟩

/-- Counterexample for C3 as stated: in the singleton distribution with
count zero the strictly highest count belongs to the key English, yet the
loop never updates its accumulator and the dash placeholder is
returned. -/
theorem mostFrequent_counterexample :
    mostFrequentLanguage [("English", 0)] ≠ "English" := by decide

end LangSense

namespace LangSense

/-- Setting a key makes it the value found by a subsequent lookup. -/
theorem objGet_objSet_self {α : Type} (o : List (String × α)) (k : String) (v : α) :
    objGet (objSet o k v) k = some v := by
  induction o with
  | nil => simp [objSet, objGet]
  | cons p t ih =>
    by_cases h : p.1 = k
    · simp [objSet, h, objGet]
    · simp [objSet, h, objGet, ih]

/-- Setting a key leaves lookups of other keys unchanged. -/
theorem objGet_objSet_ne {α : Type} (o : List (String × α)) (k k' : String) (v : α)
    (h : k' ≠ k) : objGet (objSet o k v) k' = objGet o k' := by
  induction o with
  | nil => simp [objSet, objGet, Ne.symm h]
  | cons p t ih =>
    by_cases hp : p.1 = k
    · simp only [objSet, if_pos hp, objGet]
      rw [if_neg (Ne.symm h), if_neg (by rw [hp]; exact Ne.symm h)]
    · simp only [objSet, if_neg hp, objGet]
      by_cases hk : p.1 = k'
      · rw [if_pos hk, if_pos hk]
      · rw [if_neg hk, if_neg hk, ih]

/-- Setting a key preserves the key order, appending the key at the end
exactly when it was absent. -/
theorem objSet_keys {α : Type} (o : List (String × α)) (k : String) (v : α) :
    (objSet o k v).map Prod.fst =
      if k ∈ o.map Prod.fst then o.map Prod.fst else o.map Prod.fst ++ [k] := by
  induction o with
  | nil => simp [objSet]
  | cons p t ih =>
    by_cases h : p.1 = k
    · simp [objSet, h]
    · simp only [objSet, if_neg h, List.map_cons, ih]
      by_cases hm : k ∈ t.map Prod.fst
      · rw [if_pos hm, if_pos (List.mem_cons_of_mem _ hm)]
      · rw [if_neg hm, if_neg (by
          intro hmem
          rcases List.mem_cons.mp hmem with h1 | h1
          · exact h h1.symm
          · exact hm h1)]
        rfl

/-- Entries of an updated object are the written pair or prior entries. -/
theorem mem_objSet {α : Type} (o : List (String × α)) (k : String) (v : α) :
    ∀ p ∈ objSet o k v, p = (k, v) ∨ p ∈ o := by
  induction o with
  | nil => simp [objSet]
  | cons q t ih =>
    intro p hp
    by_cases h : q.1 = k
    · rw [objSet, if_pos h] at hp
      rcases List.mem_cons.mp hp with h1 | h1
      · exact Or.inl h1
      · exact Or.inr (List.mem_cons_of_mem q h1)
    · rw [objSet, if_neg h] at hp
      rcases List.mem_cons.mp hp with h1 | h1
      · exact Or.inr (h1 ▸ List.mem_cons_self q t)
      · rcases ih p h1 with h2 | h2
        · exact Or.inl h2
        · exact Or.inr (List.mem_cons_of_mem q h2)

/-- A successful lookup exhibits a list entry. -/
theorem objGet_mem {α : Type} (o : List (String × α)) (k : String) (v : α)
    (h : objGet o k = some v) : (k, v) ∈ o := by
  induction o with
  | nil => simp [objGet] at h
  | cons p t ih =>
    by_cases hp : p.1 = k
    · rw [objGet, if_pos hp] at h
      have hpv : p = (k, v) := by
        cases p
        simp_all
      exact hpv ▸ List.mem_cons_self p t
    · rw [objGet, if_neg hp] at h
      exact List.mem_cons_of_mem p (ih h)

/-- A lookup fails exactly when the key is absent. -/
theorem objGet_eq_none_iff {α : Type} (o : List (String × α)) (k : String) :
    objGet o k = none ↔ k ∉ o.map Prod.fst := by
  induction o with
  | nil => simp [objGet]
  | cons p t ih =>
    by_cases hp : p.1 = k
    · simp [objGet, hp]
    · rw [objGet, if_neg hp, List.map_cons, ih]
      constructor
      · intro hk hmem
        rcases List.mem_cons.mp hmem with h1 | h1
        · exact hp h1.symm
        · exact hk h1
      · intro hk h1
        exact hk (List.mem_cons_of_mem _ h1)

/-- Membership in the first-encounter deduplication is plain
membership. -/
theorem mem_keysInOrder (d : String) : ∀ l : List String, d ∈ keysInOrder l ↔ d ∈ l := by
  intro l
  induction l with
  | nil => simp [keysInOrder]
  | cons x t ih =>
    by_cases h : d = x
    · simp [keysInOrder, h]
    · simp [keysInOrder, List.mem_filter, h, ih]

/-- The first-encounter deduplication has no duplicate entries. -/
theorem keysInOrder_nodup : ∀ l : List String, (keysInOrder l).Nodup := by
  intro l
  induction l with
  | nil => simp [keysInOrder]
  | cons x t ih =>
    rw [keysInOrder]
    refine List.Nodup.cons ?_ (List.Nodup.filter _ ih)
    intro hmem
    have := (List.mem_filter.mp hmem).2
    simp at this

/-- Appending one value extends the first-encounter deduplication exactly
when the value is new. -/
theorem keysInOrder_concat (d : String) :
    ∀ l : List String, keysInOrder (l ++ [d]) =
      if d ∈ keysInOrder l then keysInOrder l else keysInOrder l ++ [d] := by
  intro l
  induction l with
  | nil => simp [keysInOrder]
  | cons x t ih =>
    rw [List.cons_append]
    rw [show keysInOrder (x :: (t ++ [d])) =
      x :: (keysInOrder (t ++ [d])).filter (fun y => y != x) from rfl]
    rw [show keysInOrder (x :: t) =
      x :: (keysInOrder t).filter (fun y => y != x) from rfl]
    rw [ih]
    by_cases hd : d ∈ keysInOrder t
    · rw [if_pos hd]
      have hmem : d ∈ x :: (keysInOrder t).filter (fun y => y != x) := by
        by_cases hx : d = x
        · exact hx ▸ List.mem_cons_self _ _
        · exact List.mem_cons_of_mem _ (List.mem_filter.mpr ⟨hd, by simp [hx]⟩)
      rw [if_pos hmem]
    · rw [if_neg hd, List.filter_append]
      by_cases hx : d = x
      · subst hx
        have hnil : (([d].filter (fun y => y != d)) : List String) = [] := by simp
        rw [hnil, List.append_nil, if_pos (List.mem_cons_self _ _)]
      · have hfil : (([d].filter (fun y => y != x)) : List String) = [d] := by simp [hx]
        rw [hfil]
        have hnot : d ∉ x :: (keysInOrder t).filter (fun y => y != x) := by
          intro hmem
          rcases List.mem_cons.mp hmem with h1 | h1
          · exact hx h1
          · exact hd (List.mem_filter.mp h1).1
        rw [if_neg hnot]
        rfl

/-- The grouping fold over one more item is one step of seriesStep. -/
theorem series_concat (act : List (String × String × ℕ)) (t : String × String × ℕ) :
    dailyLanguageSeries (act ++ [t]) = seriesStep (dailyLanguageSeries act) t := by
  rw [dailyLanguageSeries, List.foldl_append, List.foldl_cons, List.foldl_nil]
  rfl

/-- Appending one tuple makes it the last match for its own date and
language and leaves other last matches unchanged. -/
theorem lastMatch_concat (t : String × String × ℕ) (d lang : String) :
    ∀ act : List (String × String × ℕ),
      lastMatch (act ++ [t]) d lang =
        if t.1 = d ∧ t.2.1 = lang then some t.2.2 else lastMatch act d lang := by
  intro act
  induction act with
  | nil =>
    by_cases h : t.1 = d ∧ t.2.1 = lang <;> simp [lastMatch, h]
  | cons x rest ih =>
    rw [List.cons_append, lastMatch, ih, lastMatch]
    by_cases h : t.1 = d ∧ t.2.1 = lang <;> simp [h]

/-- A date that never occurs in the input has no last match. -/
theorem lastMatch_eq_none_of_not_mem (d lang : String) :
    ∀ act : List (String × String × ℕ), d ∉ act.map (fun t => t.1) →
      lastMatch act d lang = none := by
  intro act
  induction act with
  | nil => intro _; rfl
  | cons x rest ih =>
    intro h
    rw [List.map_cons] at h
    rw [lastMatch, ih (fun hm => h (List.mem_cons_of_mem _ hm))]
    rw [if_neg (show ¬(x.1 = d ∧ x.2.1 = lang) from
      fun hc => h (hc.1 ▸ List.mem_cons_self _ _))]

/-- A last match exhibits the date among the input dates. -/
theorem mem_of_lastMatch (d lang : String) :
    ∀ (act : List (String × String × ℕ)) (c : ℕ), lastMatch act d lang = some c →
      d ∈ act.map (fun t => t.1) := by
  intro act
  induction act with
  | nil => intro c h; simp [lastMatch] at h
  | cons x rest ih =>
    intro c h
    rw [lastMatch] at h
    rw [List.map_cons]
    cases hr : lastMatch rest d lang with
    | some c2 => exact List.mem_cons_of_mem _ (ih c2 hr)
    | none =>
      rw [hr] at h
      by_cases hc : x.1 = d ∧ x.2.1 = lang
      · exact hc.1 ▸ List.mem_cons_self _ _
      · rw [if_neg hc] at h
        exact absurd h (by simp)

/-- The keys of the days object are the input dates deduplicated in
first-encounter order. -/
theorem series_keys (act : List (String × String × ℕ)) :
    (dailyLanguageSeries act).map Prod.fst = keysInOrder (act.map (fun t => t.1)) := by
  induction act using List.reverseRecOn with
  | nil => rfl
  | append_singleton l t ih =>
    rw [series_concat, seriesStep, objSet_keys, ih, List.map_append]
    rw [show (List.map (fun t => t.1) [t] : List String) = [t.1] from rfl]
    rw [keysInOrder_concat]

/-- A date is a key of the days object exactly when it occurs in the
input. -/
theorem mem_series_keys (act : List (String × String × ℕ)) (d : String) :
    d ∈ (dailyLanguageSeries act).map Prod.fst ↔ d ∈ act.map (fun t => t.1) := by
  rw [series_keys, mem_keysInOrder]

/-- Full characterization of the chart lookup: for a date never seen the
lookup fails, otherwise the value is the count of the last matching tuple
when one exists, and the default-row entry for the language when none
does. -/
theorem rowLookup_series (d lang : String) (act : List (String × String × ℕ)) :
    rowLookup (dailyLanguageSeries act) d lang =
      if d ∈ act.map (fun t => t.1) then
        match lastMatch act d lang with
        | some c => some c
        | none => objGet defaultRow lang
      else none := by
  induction act using List.reverseRecOn with
  | nil => simp [dailyLanguageSeries, rowLookup, objGet]
  | append_singleton l t ih =>
    rw [series_concat, seriesStep, rowLookup]
    by_cases hd : d = t.1
    · rw [← hd, objGet_objSet_self]
      simp only [Option.some_bind]
      have hmem : d ∈ (l ++ [t]).map (fun q => q.1) := by
        rw [List.map_append]
        exact List.mem_append_right _ (by simp [hd])
      rw [if_pos hmem, lastMatch_concat]
      by_cases hl : lang = t.2.1
      · rw [← hl, objGet_objSet_self, if_pos ⟨hd.symm, rfl⟩]
      · rw [objGet_objSet_ne _ _ _ _ hl,
          if_neg (show ¬(t.1 = d ∧ t.2.1 = lang) from fun hc => hl hc.2.symm)]
        cases hob : objGet (dailyLanguageSeries l) d with
        | some r =>
          simp only [Option.getD_some]
          have hih := ih
          rw [rowLookup, hob] at hih
          simp only [Option.some_bind] at hih
          have hdm : d ∈ l.map (fun q => q.1) := by
            have h1 : d ∈ (dailyLanguageSeries l).map Prod.fst := by
              by_contra hcon
              rw [(objGet_eq_none_iff _ _).mpr hcon] at hob
              cases hob
            exact (mem_series_keys l d).mp h1
          rw [if_pos hdm] at hih
          exact hih
        | none =>
          simp only [Option.getD_none]
          have hdm : d ∉ l.map (fun q => q.1) := by
            have := (objGet_eq_none_iff _ _).mp hob
            rw [mem_series_keys] at this
            exact this
          rw [lastMatch_eq_none_of_not_mem d lang l hdm]
    · rw [objGet_objSet_ne _ _ _ _ hd]
      have hfold : ((objGet (dailyLanguageSeries l) d).bind fun row => objGet row lang)
          = rowLookup (dailyLanguageSeries l) d lang := rfl
      rw [hfold, ih, lastMatch_concat,
        if_neg (show ¬(t.1 = d ∧ t.2.1 = lang) from fun hc => hd hc.1.symm)]
      by_cases hm : d ∈ l.map (fun t => t.1)
      · rw [if_pos hm, if_pos (by rw [List.map_append]; exact List.mem_append_left _ hm)]
      · rw [if_neg hm, if_neg (by
          rw [List.map_append]
          intro hc
          rcases List.mem_append.mp hc with h1 | h1
          · exact hm h1
          · simp at h1
            exact hd h1)]

/-- When every input language is one of the three chart languages, every
row keeps exactly the default three keys in their creation order. -/
theorem series_row_keys (act : List (String × String × ℕ))
    (h : ∀ t ∈ act, t.2.1 ∈ (["Hindi", "English", "Hinglish"] : List String)) :
    ∀ r ∈ dailyLanguageSeries act, r.2.map Prod.fst = ["Hindi", "English", "Hinglish"] := by
  induction act using List.reverseRecOn with
  | nil =>
    intro r hr
    simp [dailyLanguageSeries] at hr
  | append_singleton l t ih =>
    intro r hr
    rw [series_concat, seriesStep] at hr
    rcases mem_objSet _ _ _ r hr with h1 | h1
    · have hlang : t.2.1 ∈ (["Hindi", "English", "Hinglish"] : List String) :=
        h t (List.mem_append_right _ (by simp))
      subst h1
      cases hob : objGet (dailyLanguageSeries l) t.1 with
      | none =>
        change (objSet (Option.getD none defaultRow) t.2.1 t.2.2).map Prod.fst = _
        rw [Option.getD_none, objSet_keys]
        rw [if_pos (by rw [show defaultRow.map Prod.fst =
          ["Hindi", "English", "Hinglish"] from rfl]; exact hlang)]
        rfl
      | some r0 =>
        have hkeys : r0.map Prod.fst = ["Hindi", "English", "Hinglish"] :=
          ih (fun q hq => h q (List.mem_append_left _ hq)) (t.1, r0) (objGet_mem _ _ _ hob)
        change (objSet (Option.getD (some r0) defaultRow) t.2.1 t.2.2).map Prod.fst = _
        rw [Option.getD_some, objSet_keys, if_pos (by rw [hkeys]; exact hlang), hkeys]
    · exact ih (fun q hq => h q (List.mem_append_left _ hq)) r h1

/-- C5 (amended): when every input language is one of English, Hindi and
Hinglish, dailyLanguageSeries emits one row per distinct date, keyed in
the order each date is first encountered and not re-sorted, each row with
exactly the fixed three-language shape, and a chart language with no
tuple for a date reads as count 0. The claim as stated, without the
language proviso, fails because a tuple with an unrecognized language
adds a fourth key to its row, see the counterexample. -/
theorem dailyLanguageSeries_amended (act : List (String × String × ℕ))
    (h : ∀ t ∈ act, t.2.1 ∈ (["Hindi", "English", "Hinglish"] : List String)) :
    ((dailyLanguageSeries act).map Prod.fst = keysInOrder (act.map (fun t => t.1))) ∧
    ((dailyLanguageSeries act).map Prod.fst).Nodup ∧
    (∀ d, d ∈ (dailyLanguageSeries act).map Prod.fst ↔ d ∈ act.map (fun t => t.1)) ∧
    (∀ r ∈ dailyLanguageSeries act, r.2.map Prod.fst = ["Hindi", "English", "Hinglish"]) ∧
    (∀ d lang, lang ∈ (["Hindi", "English", "Hinglish"] : List String) →
      lastMatch act d lang = none → d ∈ act.map (fun t => t.1) →
      rowLookup (dailyLanguageSeries act) d lang = some 0) := by
  refine ⟨series_keys act, by rw [series_keys]; exact keysInOrder_nodup _,
    mem_series_keys act, series_row_keys act h, ?_⟩
  intro d lang hlang hnone hd
  rw [rowLookup_series, if_pos hd, hnone]
  fin_cases hlang <;> rfl

/-- Witness for C5: on two tuples with distinct dates, a chart language
with no tuple for its date reads as zero. -/
theorem dailyLanguageSeries_amended_witness :
    rowLookup (dailyLanguageSeries [("d1", "English", 5), ("d2", "Hindi", 2)]) "d1" "Hindi"
      = some 0 :=
  (dailyLanguageSeries_amended [("d1", "English", 5), ("d2", "Hindi", 2)] (by decide)).2.2.2.2
    "d1" "Hindi" (by decide) (by decide) (by decide)

/-- Counterexample for C5 as stated: a tuple with language Unknown gives
its row a fourth key, so the row does not have exactly the fixed
three-language shape. -/
theorem dailyLanguageSeries_counterexample :
    ¬ (∀ r ∈ dailyLanguageSeries [("2024-01-01", "Unknown", 3)],
        r.2.map Prod.fst = ["Hindi", "English", "Hinglish"]) := by decide

/-- C10: when the input carries at least one tuple for a date and
language, the emitted count is the count of the last such tuple in input
order, so repeated (date, language) pairs are overwritten rather than
summed. -/
theorem dailyLanguageSeries_lastWrite (act : List (String × String × ℕ)) (d lang : String)
    (c : ℕ) (h : lastMatch act d lang = some c) :
    rowLookup (dailyLanguageSeries act) d lang = some c := by
  rw [rowLookup_series, if_pos (mem_of_lastMatch d lang act c h), h]

/-- Witness for C10: two tuples for the same date and language yield the
later count 7, not the sum 12. -/
theorem dailyLanguageSeries_lastWrite_witness :
    rowLookup (dailyLanguageSeries [("d1", "English", 5), ("d1", "English", 7)])
      "d1" "English" = some 7 :=
  dailyLanguageSeries_lastWrite [("d1", "English", 5), ("d1", "English", 7)]
    "d1" "English" 7 (by decide)

end LangSense

namespace LangSense

/-- The bucket-increment fold adds to each bucket the number of records
equal to its day, independent of any other bucket. -/
theorem foldl_incIfPresent (r : List ℤ) :
    ∀ init : List (ℤ × ℕ),
      r.foldl incIfPresent init = init.map (fun p => (p.1, p.2 + r.count p.1)) := by
  induction r with
  | nil =>
    intro init
    simp
  | cons x r ih =>
    intro init
    rw [List.foldl_cons, ih (incIfPresent init x), incIfPresent, List.map_map]
    have hfun : ((fun p : ℤ × ℕ => (p.1, p.2 + r.count p.1)) ∘
        (fun p : ℤ × ℕ => if p.1 = x then (p.1, p.2 + 1) else p)) =
        (fun p : ℤ × ℕ => (p.1, p.2 + (x :: r).count p.1)) := by
      funext p
      by_cases h : p.1 = x
      · simp only [Function.comp, if_pos h, List.count_cons, h]
        simp only [Prod.mk.injEq, true_and]
        simp [beq_iff_eq]
        omega
      · simp only [Function.comp, if_neg h, List.count_cons]
        simp only [Prod.mk.injEq, true_and]
        have hbeq : (x == p.1) = false := by
          simp [beq_iff_eq]
          exact fun hh => h hh.symm
        simp [hbeq]
    rw [hfun]

/-- Shifting the current instant back by whole calendar days, as the
setDate loop does for a client at a fixed UTC offset, shifts its UTC day
by the same amount, so the seven labels are consecutive UTC days. -/
theorem last7Days_eq (now : ℤ) :
    last7Days now = (List.range 7).map (fun (i : ℕ) => utcDay now - 6 + (i : ℤ)) := by
  rw [last7Days]
  have hfun : (fun (i : ℕ) => utcDay (now - (6 - (i : ℤ)) * 1440)) =
      fun (i : ℕ) => utcDay now - 6 + (i : ℤ) := by
    funext i
    rw [utcDay, utcDay]
    omega
  rw [hfun]

/-- C2 (amended): bucketByDay returns exactly 7 buckets for every record
list; their labels are the seven consecutive UTC calendar days ending at
the UTC date of the current instant, which is not in general the
client-local date, see the counterexample; each bucket holds the number
of records whose created_at instant truncates to its day, so buckets
start at zero, each in-window record increments exactly its own bucket,
and out-of-window records are ignored without error. A DST transition
inside the window is outside this fixed-offset model. -/
theorem bucketByDay_amended (records : List ℤ) (now : ℤ) :
    (bucketByDay records now).length = 7 ∧
    (bucketByDay records now).map Prod.fst
      = (List.range 7).map (fun (i : ℕ) => utcDay now - 6 + (i : ℤ)) ∧
    ((bucketByDay records now).map Prod.fst).getLast? = some (utcDay now) ∧
    (∀ p ∈ bucketByDay records now, p.2 = (records.map utcDay).count p.1) := by
  have hkeys : (bucketByDay records now).map Prod.fst = last7Days now := by
    rw [bucketByDay, foldl_incIfPresent, List.map_map, List.map_map]
    have hcomp : (((Prod.fst ∘ fun p : ℤ × ℕ =>
        (p.1, p.2 + (records.map utcDay).count p.1)) ∘
        fun d : ℤ => (d, (0 : ℕ)))) = fun d : ℤ => d := by
      funext d
      rfl
    rw [hcomp]
    simp
  refine ⟨?_, by rw [hkeys, last7Days_eq], ?_, ?_⟩
  · have hlen := congrArg List.length hkeys
    rw [List.length_map] at hlen
    rw [hlen, last7Days, List.length_map, List.length_range]
  · rw [hkeys, last7Days_eq]
    rw [show (List.range 7 : List ℕ) = [0, 1, 2, 3, 4, 5, 6] from rfl]
    simp
  · intro p hp
    rw [bucketByDay, foldl_incIfPresent, List.map_map] at hp
    rcases List.mem_map.mp hp with ⟨d, _, hd⟩
    rw [← hd]
    simp

/-- Witness for C2: with the current instant inside day 10, records whose
instants lie in days 10 and 4 fall in the window while a record in day
100 is ignored, and the day-10 bucket holds exactly the count of
matching records. -/
theorem bucketByDay_amended_witness :
    ((10 : ℤ), 1) ∈ bucketByDay [14405, 5763, 144000] 14500 ∧
      (1 = (([14405, 5763, 144000] : List ℤ).map utcDay).count ((10 : ℤ), 1).1) :=
  ⟨by decide,
   (bucketByDay_amended [14405, 5763, 144000] 14500).2.2.2 ((10 : ℤ), 1) (by decide)⟩

/-- Counterexample for C2 as stated: at the instant 1300 minutes into
the epoch (21:40 UTC of day 0) a client at the fixed offset of 330
minutes (UTC+5:30) is already in local day 1, yet the last bucket label
is the UTC date, day 0, so the window does not end at the client-local
date. -/
theorem bucketByDay_counterexample :
    ((bucketByDay [] 1300).map Prod.fst).getLast? = some (utcDay 1300) ∧
      utcDay 1300 ≠ localDay 330 1300 := by decide

/-- C4 (amended): texts of length at most 100 pass through untruncated,
including the boundary length 100; longer texts are truncated to their
first 100 characters followed by the three-character ellipsis, so the
rendered preview string has length 103, with the truncated flag set. The
claim that the preview has length exactly 100 fails because the ellipsis
is appended to the 100 retained characters, see the counterexample. -/
theorem previewText_amended (text : List Char) :
    (text.length ≤ 100 → previewText text = (text, false)) ∧
    (100 < text.length →
      (previewText text).1 = text.take 100 ++ ellipsis ∧
      (previewText text).1.length = 103 ∧ (previewText text).2 = true) := by
  constructor
  · intro h
    rw [previewText, if_neg (by omega)]
  · intro h
    rw [previewText, if_pos h]
    refine ⟨rfl, ?_, rfl⟩
    simp [ellipsis]
    omega

/-- Witness for C4: a short text passes through and a 150-character text
is cut to the 103-character preview. -/
theorem previewText_amended_witness :
    previewText ['h', 'i'] = (['h', 'i'], false) ∧
      (previewText (List.replicate 150 'a')).1.length = 103 :=
  ⟨(previewText_amended ['h', 'i']).1 (by decide),
   ((previewText_amended (List.replicate 150 'a')).2 (by simp)).2.1⟩

/-- Counterexample for C4 as stated: a 101-character text is truncated,
yet its preview has length 103, not 100. -/
theorem previewText_counterexample :
    (previewText (List.replicate 101 'a')).2 = true ∧
      (previewText (List.replicate 101 'a')).1.length ≠ 100 := by
  constructor
  · rw [previewText, if_pos (by simp)]
  · rw [previewText, if_pos (by simp)]
    simp [ellipsis]

/-- C6 (amended): on every present string the badge mapping is total,
sending the three recognized languages, compared case-insensitively
through toLowerCase, to their specific style keys and every other string
to the single gray fallback key; an absent language value is not mapped
to the fallback but makes the toLowerCase call throw, see the
counterexample. -/
theorem getLanguageBadge_amended (s : String) :
    (getLanguageBadge (some s)).isSome = true ∧
    (jsToLower s = "hindi" →
      getLanguageBadge (some s) = some "bg-gradient-to-r from-orange-500 to-red-500") ∧
    (jsToLower s = "english" →
      getLanguageBadge (some s) = some "bg-gradient-to-r from-blue-500 to-blue-600") ∧
    (jsToLower s = "hinglish" →
      getLanguageBadge (some s) = some "bg-gradient-to-r from-green-500 to-emerald-500") ∧
    (jsToLower s ≠ "hindi" → jsToLower s ≠ "english" → jsToLower s ≠ "hinglish" →
      getLanguageBadge (some s) = some "bg-gradient-to-r from-gray-500 to-gray-600") := by
  refine ⟨rfl, fun h => ?_, fun h => ?_, fun h => ?_, fun h1 h2 h3 => ?_⟩
  · rw [getLanguageBadge, h]
    rfl
  · rw [getLanguageBadge, h]
    rfl
  · rw [getLanguageBadge, h]
    rfl
  · rw [getLanguageBadge, if_neg h1, if_neg h2, if_neg h3]

/-- Witness for C6: the uppercase spelling HINDI maps to the orange
Hindi style and an unrecognized language maps to the gray fallback. -/
theorem getLanguageBadge_amended_witness :
    getLanguageBadge (some "HINDI") = some "bg-gradient-to-r from-orange-500 to-red-500" ∧
      getLanguageBadge (some "Klingon") = some "bg-gradient-to-r from-gray-500 to-gray-600" :=
  ⟨(getLanguageBadge_amended "HINDI").2.1 (by decide),
   (getLanguageBadge_amended "Klingon").2.2.2.2 (by decide) (by decide) (by decide)⟩

/-- Counterexample for C6 as stated: an absent language value does not
map to the fallback style key; the toLowerCase call throws, modelled as
none. -/
theorem getLanguageBadge_counterexample : getLanguageBadge none = none := rfl

/-- C7: prevPage decrements currentPage by exactly one only when
currentPage exceeds 1 and nextPage increments it by exactly one only when
currentPage is below totalPages; otherwise the state is unchanged and no
reload is triggered; consequently currentPage at least 1 is preserved by
prevPage, nextPage and the filter-application page reset. -/
theorem pagination_guarded (s : PagState) :
    (1 < s.currentPage →
      prevPage s = ({ s with currentPage := s.currentPage - 1 }, true)) ∧
    (¬ 1 < s.currentPage → prevPage s = (s, false)) ∧
    (s.currentPage < s.totalPages →
      nextPage s = ({ s with currentPage := s.currentPage + 1 }, true)) ∧
    (¬ s.currentPage < s.totalPages → nextPage s = (s, false)) ∧
    (1 ≤ s.currentPage →
      1 ≤ (prevPage s).1.currentPage ∧ 1 ≤ (nextPage s).1.currentPage ∧
        1 ≤ (applyFiltersPage s).1.currentPage) := by
  refine ⟨fun h => by rw [prevPage, if_pos h], fun h => by rw [prevPage, if_neg h],
    fun h => by rw [nextPage, if_pos h], fun h => by rw [nextPage, if_neg h],
    fun h => ?_⟩
  unfold prevPage nextPage applyFiltersPage
  by_cases h1 : 1 < s.currentPage <;> by_cases h2 : s.currentPage < s.totalPages <;>
    simp [h1, h2] <;> omega

/-- Witness for C7: from page 2 of 3 the previous-page action reaches
page 1 with a reload, and at page 3 of 3 the next-page action does
nothing. -/
theorem pagination_guarded_witness :
    prevPage ⟨2, 3⟩ = (⟨1, 3⟩, true) ∧ nextPage ⟨3, 3⟩ = (⟨3, 3⟩, false) :=
  ⟨(pagination_guarded ⟨2, 3⟩).1 (by decide),
   (pagination_guarded ⟨3, 3⟩).2.2.2.1 (by decide)⟩

/-- C8: for every starting state and every fetch outcome, including the
failure envelope, a network error and a non-JSON body, loadHistory ends
with the loading indicator cleared, back in the idle state, and leaves
the current page untouched, so the pipeline remains consistent and
retryable after any failure. -/
theorem loadHistory_returns_idle (s : HState) (o : FetchOutcome) :
    (loadHistory s o).loading = false ∧
      (loadHistory s o).currentPage = s.currentPage := by
  cases o <;> exact ⟨rfl, rfl⟩

end LangSense
